import Mathlib

/-!
Shallow embedding of the two ownership primitives of this repository:
the reference-counted shared handle (`src/shared_ptr/main.cpp`) and the
move-only exclusive handle (`src/unique_ptr/main.cpp`).

Pointers are modelled as `Option Nat` (`none` is `nullptr`), the heap of
counter cells as an association list from cell id to the stored `int`,
and deleter values by an identity tag; every invocation of a cleanup
routine is recorded as an event `(deleter, pointer)` in order.
-/

namespace CppStl

/-- A resource pointer value; `none` models `nullptr`. -/
abbrev PtrV := Option Nat

/-- Counter-cell identities (`std::atomic<int>*`) and deleter-value
    identities (`std::function<void(T*)>`) are plain `Nat` tags. -/
def defaultDeleter : Nat := 0

/-- The heap of live counter cells: an association list from cell id to
    the stored `int`, together with the next fresh id. -/
structure Heap where
  cells : List (Nat × Int)
  next : Nat
deriving DecidableEq, Repr

def Heap.empty : Heap := ⟨[], 0⟩

/-- `count_->load()` on cell `id`; `none` when the cell is not allocated. -/
def Heap.load (h : Heap) (id : Nat) : Option Int :=
  (h.cells.find? (fun c => decide (c.1 = id))).map (fun c => c.2)

/-- Write `v` into cell `id` (the write half of `fetch_add`/`fetch_sub`). -/
def Heap.store (h : Heap) (id : Nat) (v : Int) : Heap :=
  ⟨h.cells.map (fun c => if c.1 = id then (c.1, v) else c), h.next⟩

/-- `delete count_`: deallocate cell `id`. -/
def Heap.free (h : Heap) (id : Nat) : Heap :=
  ⟨h.cells.filter (fun c => decide (c.1 ≠ id)), h.next⟩

/-- `new std::atomic<int>(v)`: allocate a fresh cell holding `v`. -/
def Heap.alloc (h : Heap) (v : Int) : Nat × Heap :=
  (h.next, ⟨h.cells ++ [(h.next, v)], h.next + 1⟩)

/-- The keys of the allocated cells. -/
def Heap.ids (h : Heap) : List Nat := h.cells.map Prod.fst

/-- A `SharedPtr<T>` instance: resource pointer `ptr_`, counter-cell
    reference `count_` (`none` models a null `std::atomic<int>*`), and the
    stored deleter `deleter_`. -/
structure SharedPtr where
  ptr : PtrV
  cnt : Option Nat
  del : Nat
deriving DecidableEq, Repr

/-- The side-effect state threaded through the shared-handle operations:
    the counter-cell heap and the ordered list of cleanup invocations,
    each recorded as `(deleter identity, pointer argument)`. -/
structure Effects where
  heap : Heap
  events : List (Nat × PtrV)
deriving DecidableEq, Repr

def Effects.init : Effects := ⟨Heap.empty, []⟩

/-- `SharedPtr()` : empty construction. -/
def SharedPtr.mkEmpty : SharedPtr := ⟨none, none, defaultDeleter⟩

/-- `SharedPtr(T *ptr, deleter)` : bound construction; unconditionally
    allocates a counter cell initialized to 1. -/
def SharedPtr.bindNew (p : PtrV) (d : Nat) (s : Effects) : SharedPtr × Effects :=
  let a := s.heap.alloc 1
  (⟨p, some a.1, d⟩, ⟨a.2, s.events⟩)

/-- `acquire(other)` : copy the three fields from `other` and, when the
    counter-cell reference is non-null, `fetch_add(1)` on the cell. -/
def SharedPtr.acquire (other : SharedPtr) (s : Effects) : SharedPtr × Effects :=
  match other.cnt with
  | none => (⟨other.ptr, none, other.del⟩, s)
  | some id =>
      let v := (s.heap.load id).getD 0
      (⟨other.ptr, some id, other.del⟩, ⟨s.heap.store id (v + 1), s.events⟩)

/-- `release()` : when the counter-cell reference is non-null,
    `fetch_sub(1)`; if the value read was 1, invoke the stored deleter on
    the resource pointer and deallocate the cell. -/
def SharedPtr.release (h : SharedPtr) (s : Effects) : Effects :=
  match h.cnt with
  | none => s
  | some id =>
      let v := (s.heap.load id).getD 0
      if v = 1 then
        ⟨(s.heap.store id (v - 1)).free id, s.events ++ [(h.del, h.ptr)]⟩
      else
        ⟨s.heap.store id (v - 1), s.events⟩

/-- `operator=(const SharedPtr&)` : the `same` flag models the identity
    test `this != &other`; on a genuine assignment, release the current
    contents then acquire from `other`. -/
def SharedPtr.assign (dst other : SharedPtr) (same : Bool) (s : Effects) :
    SharedPtr × Effects :=
  if same then (dst, s)
  else SharedPtr.acquire other (dst.release s)

/-- `reset(ptr, deleter)` : release, then unconditionally allocate a fresh
    counter cell at 1 and store the new pointer and deleter. -/
def SharedPtr.reset (h : SharedPtr) (p : PtrV) (d : Nat) (s : Effects) :
    SharedPtr × Effects :=
  let s1 := h.release s
  let a := s1.heap.alloc 1
  (⟨p, some a.1, d⟩, ⟨a.2, s1.events⟩)

/-- `use_count()` : `count_ ? count_->load() : 0`. -/
def SharedPtr.use_count (h : SharedPtr) (hp : Heap) : Int :=
  match h.cnt with
  | none => 0
  | some id => (hp.load id).getD 0

/-- `operator bool()` : `ptr_ != nullptr`. -/
def SharedPtr.asBool (h : SharedPtr) : Bool := h.ptr.isSome

/-- `swap(other)` : exchange the three fields; the effect state is
    threaded untouched, as the code touches neither heap nor deleters. -/
def SharedPtr.swapWith (a b : SharedPtr) (s : Effects) :
    SharedPtr × SharedPtr × Effects :=
  (⟨b.ptr, b.cnt, b.del⟩, ⟨a.ptr, a.cnt, a.del⟩, s)

/-- The spec's "null counter-cell reference iff null resource pointer"
    handle invariant. -/
def nullIff (h : SharedPtr) : Prop := h.cnt = none ↔ h.ptr = none

/-! ### A trace machine over collections of live shared handles

States hold a list of handle slots (`none` marks a destroyed or
never-used slot, so indices stay stable) plus the effect state; the
operations are the ones of the class. -/

/-- One operation on a collection of shared handles. `copy` and the two
    constructors append a new handle slot; `destroy` runs the destructor
    of slot `i` and clears it. -/
inductive Op where
  | newEmpty : Op
  | newBound (p : PtrV) (d : Nat) : Op
  | copy (i : Nat) : Op
  | assign (dst src : Nat) : Op
  | reset (i : Nat) (p : PtrV) (d : Nat) : Op
  | destroy (i : Nat) : Op
  | swapOp (i j : Nat) : Op
deriving DecidableEq, Repr

/-- A trace-machine state: handle slots plus the effect state. -/
structure TState where
  handles : List (Option SharedPtr)
  eff : Effects
deriving DecidableEq, Repr

def TState.init : TState := ⟨[], Effects.init⟩

/-- The handle stored in slot `i`, if the slot exists and is live. -/
def slot (l : List (Option SharedPtr)) (i : Nat) : Option SharedPtr :=
  (l[i]?).getD none

/-- Execute one operation; operations on dead or out-of-range slots do
    nothing. The `dst = src` test in `assign` models `this == &other`. -/
def TState.step (s : TState) (op : Op) : TState :=
  match op with
  | .newEmpty => ⟨s.handles ++ [some SharedPtr.mkEmpty], s.eff⟩
  | .newBound p d =>
      let r := SharedPtr.bindNew p d s.eff
      ⟨s.handles ++ [some r.1], r.2⟩
  | .copy i =>
      match slot s.handles i with
      | none => s
      | some h =>
          let r := SharedPtr.acquire h s.eff
          ⟨s.handles ++ [some r.1], r.2⟩
  | .assign dst src =>
      if dst = src then s
      else
        match slot s.handles dst, slot s.handles src with
        | some hd, some hs =>
            let r := SharedPtr.acquire hs (hd.release s.eff)
            ⟨s.handles.set dst (some r.1), r.2⟩
        | _, _ => s
  | .reset i p d =>
      match slot s.handles i with
      | none => s
      | some h =>
          let r := h.reset p d s.eff
          ⟨s.handles.set i (some r.1), r.2⟩
  | .destroy i =>
      match slot s.handles i with
      | none => s
      | some h => ⟨s.handles.set i none, h.release s.eff⟩
  | .swapOp i j =>
      match slot s.handles i, slot s.handles j with
      | some hi, some hj => ⟨(s.handles.set i (some hj)).set j (some hi), s.eff⟩
      | _, _ => s

/-- Run a list of operations from a state. -/
def TState.run (s : TState) (ops : List Op) : TState := ops.foldl TState.step s

/-- Whether slot `o` holds a live handle referencing cell `id`. -/
def refsCell (id : Nat) (o : Option SharedPtr) : Bool :=
  o.any (fun h => decide (h.cnt = some id))

/-- The number of live handles referencing cell `id`. -/
def refCount (l : List (Option SharedPtr)) (id : Nat) : Nat :=
  l.countP (refsCell id)

/-- The reachable-state invariant of the shared-handle machine: cell ids
    are below the allocation cursor and distinct, each live handle's
    counter-cell reference is allocated, and every allocated cell stores
    exactly the number of live handles referencing it, which is positive. -/
structure Inv (s : TState) : Prop where
  lt_next : ∀ c ∈ s.eff.heap.cells, c.1 < s.eff.heap.next
  nodup : s.eff.heap.ids.Nodup
  ref_alloc : ∀ h : SharedPtr, some h ∈ s.handles → ∀ id, h.cnt = some id →
      id ∈ s.eff.heap.ids
  count_eq : ∀ c ∈ s.eff.heap.cells,
      c.2 = (refCount s.handles c.1 : Int) ∧ 1 ≤ c.2

/-- `op` never hands a null resource pointer to bound construction or
    `reset` (the hypothesis of the amended null-iff claim). -/
def opNonNull : Op → Bool
  | .newBound p _ => p.isSome
  | .reset _ p _ => p.isSome
  | _ => true

/-! ### The exclusive handle (`UniquePtr<T, Deleter>`) -/

/-- A `UniquePtr<T, Deleter>` instance: resource pointer `ptr_` and the
    stored deleter `deleter_`. -/
structure UniquePtr where
  ptr : PtrV
  del : Nat
deriving DecidableEq, Repr

/-- The ordered list of cleanup invocations of the exclusive handle. -/
abbrev UEvents := List (Nat × PtrV)

/-- `reset(p)` : if `ptr_` is non-null invoke the deleter on it; then
    store `p`. -/
def UniquePtr.reset (u : UniquePtr) (p : PtrV) (ev : UEvents) :
    UniquePtr × UEvents :=
  match u.ptr with
  | some q => (⟨p, u.del⟩, ev ++ [(u.del, some q)])
  | none => (⟨p, u.del⟩, ev)

/-- `~UniquePtr()` : `reset()` with the default null argument. -/
def UniquePtr.destroy (u : UniquePtr) (ev : UEvents) : UEvents :=
  (u.reset none ev).2

/-- `UniquePtr(UniquePtr&&)` : steal the fields, null out the source's
    pointer. Returns (constructed handle, source afterwards). -/
def UniquePtr.moveCtor (other : UniquePtr) : UniquePtr × UniquePtr :=
  (⟨other.ptr, other.del⟩, ⟨none, other.del⟩)

/-- `swap(other)` : exchange both fields. -/
def UniquePtr.swapWith (a b : UniquePtr) : UniquePtr × UniquePtr :=
  (⟨b.ptr, b.del⟩, ⟨a.ptr, a.del⟩)

/-- `operator=(UniquePtr&&)` : implemented as `swap(other)`. Returns
    (target afterwards, source afterwards). -/
def UniquePtr.moveAssign (dst src : UniquePtr) : UniquePtr × UniquePtr :=
  UniquePtr.swapWith dst src

/-- `release()` : hand the raw pointer to the caller, null out `ptr_`,
    invoke nothing. Returns (returned pointer, handle afterwards, events). -/
def UniquePtr.release (u : UniquePtr) (ev : UEvents) :
    PtrV × UniquePtr × UEvents :=
  (u.ptr, ⟨none, u.del⟩, ev)

/-- `operator bool()` : `ptr_ != nullptr`. -/
def UniquePtr.asBool (u : UniquePtr) : Bool := u.ptr.isSome

/-! ### Basic facts about slots and the cell heap -/

theorem slot_eq_some_iff {l : List (Option SharedPtr)} {i : Nat} {h : SharedPtr} :
    slot l i = some h ↔ l[i]? = some (some h) := by
  unfold slot
  cases hl : l[i]? with
  | none => simp
  | some o => cases o <;> simp

theorem mem_of_slot {l : List (Option SharedPtr)} {i : Nat} {h : SharedPtr}
    (hs : slot l i = some h) : some h ∈ l :=
  List.getElem?_mem (slot_eq_some_iff.mp hs)

theorem lt_length_of_slot {l : List (Option SharedPtr)} {i : Nat} {h : SharedPtr}
    (hs : slot l i = some h) : i < l.length :=
  (List.getElem?_eq_some.mp (slot_eq_some_iff.mp hs)).1

theorem slot_set_ne {l : List (Option SharedPtr)} {i j : Nat} (hij : i ≠ j)
    (x : Option SharedPtr) : slot (l.set i x) j = slot l j := by
  unfold slot
  rw [List.getElem?_set_ne hij]

theorem slot_set_self {l : List (Option SharedPtr)} {i : Nat} (hi : i < l.length)
    (x : Option SharedPtr) : slot (l.set i x) i = x := by
  unfold slot
  rw [List.getElem?_set_eq_of_lt x hi]
  rfl

theorem getElem_of_slot {l : List (Option SharedPtr)} {i : Nat} {h : SharedPtr}
    (hs : slot l i = some h) : ∃ hlt : i < l.length, l[i] = some h :=
  List.getElem?_eq_some.mp (slot_eq_some_iff.mp hs)

theorem Heap.ids_store (hp : Heap) (id : Nat) (v : Int) :
    (hp.store id v).ids = hp.ids := by
  simp only [Heap.ids, Heap.store, List.map_map]
  apply List.map_congr_left
  intro c _
  by_cases hc : c.1 = id <;> simp [hc]

theorem Heap.mem_store {hp : Heap} {id : Nat} {v : Int} {c : Nat × Int}
    (hc : c ∈ (hp.store id v).cells) :
    (c.1 = id ∧ c.2 = v ∧ id ∈ hp.ids) ∨ (c ∈ hp.cells ∧ c.1 ≠ id) := by
  simp only [Heap.store, List.mem_map] at hc
  obtain ⟨c0, hc0, heq⟩ := hc
  by_cases h0 : c0.1 = id
  · left
    simp only [h0, if_pos] at heq
    refine ⟨?_, ?_, List.mem_map.mpr ⟨c0, hc0, h0⟩⟩ <;> simp [← heq, h0]
  · right
    simp only [h0, if_neg, not_false_iff] at heq
    exact ⟨heq ▸ hc0, heq ▸ h0⟩

theorem Heap.mem_free {hp : Heap} {id : Nat} {c : Nat × Int} :
    c ∈ (hp.free id).cells ↔ c ∈ hp.cells ∧ c.1 ≠ id := by
  simp [Heap.free, List.mem_filter]

theorem Heap.ids_free_sublist (hp : Heap) (id : Nat) :
    List.Sublist (hp.free id).ids hp.ids :=
  List.Sublist.map Prod.fst (List.filter_sublist hp.cells)

theorem Heap.mem_of_load {hp : Heap} {id : Nat} {v : Int}
    (hl : hp.load id = some v) : (id, v) ∈ hp.cells := by
  simp only [Heap.load, Option.map_eq_some'] at hl
  obtain ⟨c, hc, hv⟩ := hl
  have h1 : c.1 = id := by
    have := List.find?_some hc
    simpa using this
  have h2 : c ∈ hp.cells := List.mem_of_find?_eq_some hc
  have : c = (id, v) := by
    cases c
    simp_all
  exact this ▸ h2

theorem Heap.load_eq_none_iff {hp : Heap} {id : Nat} :
    hp.load id = none ↔ id ∉ hp.ids := by
  simp only [Heap.load, Option.map_eq_none', List.find?_eq_none, Heap.ids,
    List.mem_map]
  constructor
  · rintro hall ⟨c, hc, hc1⟩
    exact absurd (by simpa using hc1) (by simpa using hall c hc)
  · intro hnot c hc
    simp only [decide_eq_true_eq]
    intro h1
    exact hnot ⟨c, hc, h1⟩

theorem Heap.load_of_mem {hp : Heap} {id : Nat} {v : Int}
    (nd : hp.ids.Nodup) (hc : (id, v) ∈ hp.cells) : hp.load id = some v := by
  cases hl : hp.load id with
  | none =>
      have hmem : id ∈ hp.ids := List.mem_map.mpr ⟨(id, v), hc, rfl⟩
      exact absurd hmem (Heap.load_eq_none_iff.mp hl)
  | some w =>
      have hm := Heap.mem_of_load hl
      have := List.inj_on_of_nodup_map nd hc hm (by rfl)
      simp only [Prod.mk.injEq] at this
      rw [this.2]

theorem Heap.load_alloc (hp : Heap) (v : Int)
    (hlt : ∀ c ∈ hp.cells, c.1 < hp.next) :
    (hp.alloc v).2.load hp.next = some v := by
  simp only [Heap.alloc, Heap.load, List.find?_append]
  have h1 : hp.cells.find? (fun c => decide (c.1 = hp.next)) = none := by
    rw [List.find?_eq_none]
    intro c hc
    simp only [decide_eq_true_eq]
    exact Nat.ne_of_lt (hlt c hc)
  rw [h1]
  simp [List.find?]

theorem Heap.next_store (hp : Heap) (id : Nat) (v : Int) :
    (hp.store id v).next = hp.next := rfl

theorem Heap.next_free (hp : Heap) (id : Nat) :
    (hp.free id).next = hp.next := rfl

/-! ### Counting live referents -/

theorem refsCell_some (id : Nat) (h : SharedPtr) :
    refsCell id (some h) = decide (h.cnt = some id) := rfl

theorem refsCell_none (id : Nat) : refsCell id none = false := rfl

theorem countP_set_add (p : Option SharedPtr → Bool) :
    ∀ (l : List (Option SharedPtr)) (i : Nat) (a : Option SharedPtr),
      i < l.length →
      (l.set i a).countP p + (if p (slot l i) then 1 else 0) =
        l.countP p + (if p a then 1 else 0)
  | [], i, a, hi => absurd hi (by simp)
  | x :: t, 0, a, _ => by
      simp only [List.set_cons_zero, List.countP_cons, slot, List.getElem?_cons_zero,
        Option.getD_some]
      omega
  | x :: t, i + 1, a, hi => by
      have ih := countP_set_add p t i a (by simpa using hi)
      simp only [List.set_cons_succ, List.countP_cons, slot,
        List.getElem?_cons_succ]
      have ih' : (t.set i a).countP p + (if p (slot t i) then 1 else 0) =
          t.countP p + (if p a then 1 else 0) := ih
      simp only [slot] at ih'
      omega

theorem refCount_set_none {l : List (Option SharedPtr)} {i : Nat} {h : SharedPtr}
    (hi : slot l i = some h) (id : Nat) :
    refCount (l.set i none) id + (if h.cnt = some id then 1 else 0) =
      refCount l id := by
  have hlen := lt_length_of_slot hi
  have := countP_set_add (refsCell id) l i none hlen
  rw [hi] at this
  simpa [refCount, refsCell_some, refsCell_none] using this

theorem refCount_set_some {l : List (Option SharedPtr)} {i : Nat}
    (hi : slot l i = none) (hlen : i < l.length) (h2 : SharedPtr) (id : Nat) :
    refCount (l.set i (some h2)) id =
      refCount l id + (if h2.cnt = some id then 1 else 0) := by
  have := countP_set_add (refsCell id) l i (some h2) hlen
  rw [hi] at this
  simpa [refCount, refsCell_some, refsCell_none] using this

theorem refCount_append (l : List (Option SharedPtr)) (x : Option SharedPtr)
    (id : Nat) :
    refCount (l ++ [x]) id = refCount l id + (if refsCell id x then 1 else 0) := by
  simp [refCount, List.countP_append, List.countP_cons]

theorem one_le_countP {p : Option SharedPtr → Bool} {l : List (Option SharedPtr)}
    {a : Option SharedPtr} (ha : a ∈ l) (hp : p a) : 1 ≤ l.countP p :=
  List.countP_pos_iff.mpr ⟨a, ha, hp⟩

theorem two_le_countP {p : Option SharedPtr → Bool} :
    ∀ {l : List (Option SharedPtr)} {i j : Nat} {a b : Option SharedPtr},
      i ≠ j → l[i]? = some a → l[j]? = some b → p a → p b → 2 ≤ l.countP p
  | [], i, j, a, b, _, hi, _, _, _ => by simp at hi
  | x :: t, 0, 0, a, b, hij, _, _, _, _ => absurd rfl hij
  | x :: t, 0, j + 1, a, b, _, hi, hj, hpa, hpb => by
      have hxa : x = a := by simpa using hi
      have hjt : t[j]? = some b := by simpa using hj
      have h1 : 1 ≤ t.countP p := one_le_countP (List.getElem?_mem hjt) hpb
      simp only [List.countP_cons, hxa, hpa, if_true]
      omega
  | x :: t, i + 1, 0, a, b, _, hi, hj, hpa, hpb => by
      have hxb : x = b := by simpa using hj
      have hit : t[i]? = some a := by simpa using hi
      have h1 : 1 ≤ t.countP p := one_le_countP (List.getElem?_mem hit) hpa
      simp only [List.countP_cons, hxb, hpb, if_true]
      omega
  | x :: t, i + 1, j + 1, a, b, hij, hi, hj, hpa, hpb => by
      have hit : t[i]? = some a := by simpa using hi
      have hjt : t[j]? = some b := by simpa using hj
      have ih := two_le_countP (p := p) (l := t)
        (fun h => hij (by omega)) hit hjt hpa hpb
      simp only [List.countP_cons]
      omega

theorem countP_double_set {p : Option SharedPtr → Bool}
    {l : List (Option SharedPtr)} {i j : Nat} {a b : Option SharedPtr}
    (hi : slot l i = a) (hj : slot l j = b) (hil : i < l.length)
    (hjl : j < l.length) :
    ((l.set i b).set j a).countP p = l.countP p := by
  by_cases hij : i = j
  · subst hij
    have hab : a = b := by rw [← hi, ← hj]
    subst hab
    have h2 := countP_set_add p (l.set i a) i a (by simpa using hil)
    have h1 := countP_set_add p l i a hil
    rw [hi] at h1
    rw [slot_set_self hil] at h2
    omega
  · have h1 := countP_set_add p l i b hil
    rw [hi] at h1
    have h2 := countP_set_add p (l.set i b) j a (by simpa using hjl)
    rw [slot_set_ne hij b, hj] at h2
    omega

/-! ### Preservation of the machine invariant -/

theorem acquire_fst (o : SharedPtr) (s : Effects) :
    (SharedPtr.acquire o s).1 = ⟨o.ptr, o.cnt, o.del⟩ := by
  cases hc : o.cnt <;> simp [SharedPtr.acquire, hc]

theorem Heap.mem_ids_store_free {hp : Heap} {id id' : Nat} {v : Int}
    (hmem : id' ∈ hp.ids) (hne : id' ≠ id) :
    id' ∈ ((hp.store id v).free id).ids := by
  obtain ⟨c1, hc1, h1⟩ := List.mem_map.mp hmem
  have hc1ne : c1.1 ≠ id := by rw [h1]; exact hne
  have hmem2 : c1 ∈ (hp.store id v).cells := by
    simp only [Heap.store, List.mem_map]
    exact ⟨c1, hc1, by simp [hc1ne]⟩
  have hmem3 : c1 ∈ ((hp.store id v).free id).cells :=
    Heap.mem_free.mpr ⟨hmem2, hc1ne⟩
  exact List.mem_map.mpr ⟨c1, hmem3, h1⟩

theorem inv_release_at {s : TState} (hs : Inv s) {i : Nat} {h : SharedPtr}
    (hi : slot s.handles i = some h) :
    Inv ⟨s.handles.set i none, h.release s.eff⟩ := by
  obtain ⟨hlt, hnd, hra, hce⟩ := hs
  have hmem : some h ∈ s.handles := mem_of_slot hi
  cases hc : h.cnt with
  | none =>
      have hrel : h.release s.eff = s.eff := by simp [SharedPtr.release, hc]
      rw [hrel]
      refine ⟨hlt, hnd, ?_, ?_⟩
      · intro h' hmem' id hid
        rcases List.mem_or_eq_of_mem_set hmem' with hin | heq
        · exact hra h' hin id hid
        · simp at heq
      · intro c hcmem
        obtain ⟨hval, hpos⟩ := hce c hcmem
        have hrc := refCount_set_none hi c.1
        rw [hc] at hrc
        simp only [reduceCtorEq, if_false, Nat.add_zero] at hrc
        exact ⟨by rw [hrc]; exact hval, hpos⟩
  | some id =>
      have hid : id ∈ s.eff.heap.ids := hra h hmem id hc
      obtain ⟨c0, hc0, hc01⟩ := List.mem_map.mp hid
      obtain ⟨hval, hpos⟩ := hce c0 hc0
      have hc0eq : c0 = (id, (refCount s.handles id : Int)) := by
        obtain ⟨ck, cv⟩ := c0
        simp only at hc01
        subst hc01
        simpa using hval
      have hload : s.eff.heap.load id = some (refCount s.handles id : Int) :=
        Heap.load_of_mem hnd (hc0eq ▸ hc0)
      have hidlt : id < s.eff.heap.next := by
        have := hlt c0 hc0
        rwa [hc01] at this
      have hn1 : 1 ≤ refCount s.handles id := by
        rw [hc0eq] at hpos
        have h1i : (1 : Int) ≤ (refCount s.handles id : Int) := by simpa using hpos
        exact_mod_cast h1i
      have hdec := refCount_set_none hi id
      rw [hc] at hdec
      simp at hdec
      by_cases hone : refCount s.handles id = 1
      · have hrel : h.release s.eff =
            ⟨(s.eff.heap.store id ((refCount s.handles id : Int) - 1)).free id,
              s.eff.events ++ [(h.del, h.ptr)]⟩ := by
          simp [SharedPtr.release, hc, hload, hone]
        rw [hrel]
        refine ⟨?_, ?_, ?_, ?_⟩
        · intro c hcm
          rw [Heap.mem_free] at hcm
          rcases Heap.mem_store hcm.1 with ⟨h1, _, _⟩ | ⟨hin, _⟩
          · exact absurd h1 hcm.2
          · exact hlt c hin
        · exact hnd.sublist ((Heap.ids_store s.eff.heap id _) ▸
            Heap.ids_free_sublist (s.eff.heap.store id _) id)
        · intro h' hm' id' hid'
          rcases List.mem_or_eq_of_mem_set hm' with hin | heq
          · by_cases hii : id' = id
            · have h1le : 1 ≤ refCount (s.handles.set i none) id :=
                one_le_countP hm' (by simp [refsCell_some, hid', hii])
              omega
            · exact Heap.mem_ids_store_free (hra h' hin id' hid') hii
          · simp at heq
        · intro c hcm
          rw [Heap.mem_free] at hcm
          rcases Heap.mem_store hcm.1 with ⟨h1, _, _⟩ | ⟨hin, hne⟩
          · exact absurd h1 hcm.2
          · obtain ⟨hval', hpos'⟩ := hce c hin
            have hrc := refCount_set_none hi c.1
            rw [hc] at hrc
            have hcne : ¬ ((some id : Option Nat) = some c.1) := by
              simp
              exact fun he => hne he.symm
            rw [if_neg hcne] at hrc
            simp only [Nat.add_zero] at hrc
            exact ⟨by rw [hrc]; exact hval', hpos'⟩
      · have hrel : h.release s.eff =
            ⟨s.eff.heap.store id ((refCount s.handles id : Int) - 1),
              s.eff.events⟩ := by
          have : ¬ ((refCount s.handles id : Int) = 1) := by exact_mod_cast hone
          simp [SharedPtr.release, hc, hload, this]
        rw [hrel]
        refine ⟨?_, ?_, ?_, ?_⟩
        · intro c hcm
          rcases Heap.mem_store hcm with ⟨h1, _, _⟩ | ⟨hin, _⟩
          · show c.1 < s.eff.heap.next
            rw [h1]
            exact hidlt
          · exact hlt c hin
        · exact (Heap.ids_store s.eff.heap id _) ▸ hnd
        · intro h' hm' id' hid'
          rcases List.mem_or_eq_of_mem_set hm' with hin | heq
          · have := hra h' hin id' hid'
            rwa [Heap.ids_store]
          · simp at heq
        · intro c hcm
          rcases Heap.mem_store hcm with ⟨h1, h2, _⟩ | ⟨hin, hne⟩
          · constructor
            · rw [h1, h2]
              have : refCount (s.handles.set i none) id =
                  refCount s.handles id - 1 := by omega
              rw [this]
              omega
            · rw [h2]
              omega
          · obtain ⟨hval', hpos'⟩ := hce c hin
            have hrc := refCount_set_none hi c.1
            rw [hc] at hrc
            have hcne : ¬ ((some id : Option Nat) = some c.1) := by
              simp
              exact fun he => hne he.symm
            rw [if_neg hcne] at hrc
            simp only [Nat.add_zero] at hrc
            exact ⟨by rw [hrc]; exact hval', hpos'⟩

theorem inv_acquire_gen {t : TState} (ht : Inv t) {hsrc : SharedPtr}
    (hmem : some hsrc ∈ t.handles) (l' : List (Option SharedPtr))
    (hsub : ∀ h' : SharedPtr, some h' ∈ l' →
        some h' ∈ t.handles ∨ h' = (SharedPtr.acquire hsrc t.eff).1)
    (hrc : ∀ id, refCount l' id = refCount t.handles id +
        (if hsrc.cnt = some id then 1 else 0)) :
    Inv ⟨l', (SharedPtr.acquire hsrc t.eff).2⟩ := by
  obtain ⟨hlt, hnd, hra, hce⟩ := ht
  have hfst := acquire_fst hsrc t.eff
  cases hc : hsrc.cnt with
  | none =>
      have hsnd : (SharedPtr.acquire hsrc t.eff).2 = t.eff := by
        simp [SharedPtr.acquire, hc]
      rw [hsnd]
      refine ⟨hlt, hnd, ?_, ?_⟩
      · intro h' hm' id hid
        rcases hsub h' hm' with hin | heq
        · exact hra h' hin id hid
        · rw [heq, hfst] at hid
          simp only [hc] at hid
          exact absurd hid (by simp)
      · intro c hcm
        obtain ⟨hval, hpos⟩ := hce c hcm
        have := hrc c.1
        rw [hc] at this
        simp only [reduceCtorEq, if_false, Nat.add_zero] at this
        exact ⟨by rw [this]; exact hval, hpos⟩
  | some id =>
      have hid : id ∈ t.eff.heap.ids := hra hsrc hmem id hc
      obtain ⟨c0, hc0, hc01⟩ := List.mem_map.mp hid
      obtain ⟨hval, hpos⟩ := hce c0 hc0
      have hc0eq : c0 = (id, (refCount t.handles id : Int)) := by
        obtain ⟨ck, cv⟩ := c0
        simp only at hc01
        subst hc01
        simpa using hval
      have hload : t.eff.heap.load id = some (refCount t.handles id : Int) :=
        Heap.load_of_mem hnd (hc0eq ▸ hc0)
      have hidlt : id < t.eff.heap.next := by
        have := hlt c0 hc0
        rwa [hc01] at this
      have hsnd : (SharedPtr.acquire hsrc t.eff).2 =
          ⟨t.eff.heap.store id ((refCount t.handles id : Int) + 1),
            t.eff.events⟩ := by
        simp [SharedPtr.acquire, hc, hload]
      rw [hsnd]
      refine ⟨?_, ?_, ?_, ?_⟩
      · intro c hcm
        rcases Heap.mem_store hcm with ⟨h1, _, _⟩ | ⟨hin, _⟩
        · show c.1 < t.eff.heap.next
          rw [h1]
          exact hidlt
        · exact hlt c hin
      · exact (Heap.ids_store t.eff.heap id _) ▸ hnd
      · intro h' hm' id' hid'
        rcases hsub h' hm' with hin | heq
        · have := hra h' hin id' hid'
          rwa [Heap.ids_store]
        · rw [heq, hfst] at hid'
          simp only [hc, Option.some.injEq] at hid'
          rw [Heap.ids_store]
          rwa [← hid']
      · intro c hcm
        rcases Heap.mem_store hcm with ⟨h1, h2, _⟩ | ⟨hin, hne⟩
        · have hrcid := hrc id
          rw [hc, if_pos rfl] at hrcid
          constructor
          · rw [h1, h2, hrcid]
            push_cast
            ring
          · rw [h2]
            have : (0 : Int) ≤ (refCount t.handles id : Int) := by positivity
            omega
        · obtain ⟨hval', hpos'⟩ := hce c hin
          have hrcc := hrc c.1
          rw [hc] at hrcc
          have hcne : ¬ ((some id : Option Nat) = some c.1) := by
            simp
            exact fun he => hne he.symm
          rw [if_neg hcne] at hrcc
          simp only [Nat.add_zero] at hrcc
          exact ⟨by rw [hrcc]; exact hval', hpos'⟩

theorem inv_alloc_gen {t : TState} (ht : Inv t) (p : PtrV) (d : Nat)
    (l' : List (Option SharedPtr))
    (hsub : ∀ h' : SharedPtr, some h' ∈ l' →
        some h' ∈ t.handles ∨ h' = ⟨p, some t.eff.heap.next, d⟩)
    (hrc : ∀ id, refCount l' id = refCount t.handles id +
        (if (some t.eff.heap.next : Option Nat) = some id then 1 else 0)) :
    Inv ⟨l', ⟨(t.eff.heap.alloc 1).2, t.eff.events⟩⟩ := by
  obtain ⟨hlt, hnd, hra, hce⟩ := ht
  have hfresh : refCount t.handles t.eff.heap.next = 0 := by
    apply List.countP_eq_zero.mpr
    intro o ho
    cases o with
    | none => simp [refsCell_none]
    | some h' =>
        simp only [refsCell_some, decide_eq_true_eq]
        intro hcnt
        have hmem := hra h' ho _ hcnt
        obtain ⟨c1, hc1, h11⟩ := List.mem_map.mp hmem
        have hlt1 := hlt c1 hc1
        omega
  have hcells : (t.eff.heap.alloc 1).2.cells =
      t.eff.heap.cells ++ [(t.eff.heap.next, 1)] := rfl
  have hnext : (t.eff.heap.alloc 1).2.next = t.eff.heap.next + 1 := rfl
  refine ⟨?_, ?_, ?_, ?_⟩
  · intro c hcm
    rw [hcells] at hcm
    rcases List.mem_append.mp hcm with hin | hnew
    · have := hlt c hin
      rw [hnext]
      omega
    · have : c = (t.eff.heap.next, 1) := by simpa using hnew
      rw [this, hnext]
      omega
  · show ((t.eff.heap.alloc 1).2.cells.map Prod.fst).Nodup
    rw [hcells, List.map_append]
    rw [List.nodup_append]
    refine ⟨hnd, by simp, ?_⟩
    intro a ha hb
    have hae : a = t.eff.heap.next := by simpa using hb
    obtain ⟨c1, hc1, h11⟩ := List.mem_map.mp ha
    have := hlt c1 hc1
    omega
  · intro h' hm' id' hid'
    show id' ∈ (t.eff.heap.alloc 1).2.cells.map Prod.fst
    rw [hcells, List.map_append]
    rcases hsub h' hm' with hin | heq
    · exact List.mem_append.mpr (Or.inl (hra h' hin id' hid'))
    · rw [heq] at hid'
      simp only [Option.some.injEq] at hid'
      apply List.mem_append.mpr
      right
      simp [← hid']
  · intro c hcm
    rw [hcells] at hcm
    rcases List.mem_append.mp hcm with hin | hnew
    · obtain ⟨hval, hpos⟩ := hce c hin
      have hrcc := hrc c.1
      have hcne : ¬ ((some t.eff.heap.next : Option Nat) = some c.1) := by
        have := hlt c hin
        simp
        omega
      rw [if_neg hcne] at hrcc
      simp only [Nat.add_zero] at hrcc
      exact ⟨by rw [hrcc]; exact hval, hpos⟩
    · have hceq : c = (t.eff.heap.next, 1) := by simpa using hnew
      have hrcc := hrc t.eff.heap.next
      rw [if_pos rfl, hfresh] at hrcc
      rw [hceq]
      constructor
      · show (1 : Int) = (refCount l' t.eff.heap.next : Int)
        rw [hrcc]
        simp
      · simp

theorem refCount_append_cnt (l : List (Option SharedPtr)) (h2 : SharedPtr)
    (id : Nat) :
    refCount (l ++ [some h2]) id =
      refCount l id + (if h2.cnt = some id then 1 else 0) := by
  rw [refCount_append]
  congr 1
  by_cases hh : h2.cnt = some id <;> simp [refsCell_some, hh]

theorem inv_step {s : TState} (hs : Inv s) (op : Op) : Inv (s.step op) := by
  cases op with
  | newEmpty =>
      show Inv ⟨s.handles ++ [some SharedPtr.mkEmpty], s.eff⟩
      obtain ⟨hlt, hnd, hra, hce⟩ := hs
      refine ⟨hlt, hnd, ?_, ?_⟩
      · intro h' hm' id hid
        rcases List.mem_append.mp hm' with hin | hnew
        · exact hra h' hin id hid
        · have he : h' = SharedPtr.mkEmpty := by simpa using hnew
          rw [he] at hid
          exact absurd hid (by simp [SharedPtr.mkEmpty])
      · intro c hcm
        obtain ⟨hval, hpos⟩ := hce c hcm
        rw [refCount_append_cnt]
        refine ⟨?_, hpos⟩
        simpa [SharedPtr.mkEmpty] using hval
  | newBound p d =>
      show Inv ⟨s.handles ++ [some (SharedPtr.bindNew p d s.eff).1],
        (SharedPtr.bindNew p d s.eff).2⟩
      apply inv_alloc_gen hs p d
      · intro h' hm'
        rcases List.mem_append.mp hm' with hin | hnew
        · exact Or.inl hin
        · exact Or.inr (by simpa [SharedPtr.bindNew] using hnew)
      · intro id
        have := refCount_append_cnt s.handles ⟨p, some s.eff.heap.next, d⟩ id
        simpa [SharedPtr.bindNew] using this
  | copy i =>
      cases hslot : slot s.handles i with
      | none =>
          have hstep : s.step (Op.copy i) = s := by
            simp [TState.step, hslot]
          rw [hstep]
          exact hs
      | some h =>
          have hstep : s.step (Op.copy i) =
              ⟨s.handles ++ [some (SharedPtr.acquire h s.eff).1],
                (SharedPtr.acquire h s.eff).2⟩ := by
            simp [TState.step, hslot]
          rw [hstep]
          apply inv_acquire_gen hs (mem_of_slot hslot)
          · intro h' hm'
            rcases List.mem_append.mp hm' with hin | hnew
            · exact Or.inl hin
            · exact Or.inr (by simpa using hnew)
          · intro id
            rw [acquire_fst]
            have := refCount_append_cnt s.handles ⟨h.ptr, h.cnt, h.del⟩ id
            simpa using this
  | assign dst src =>
      by_cases hds : dst = src
      · have hstep : s.step (Op.assign dst src) = s := by
          simp [TState.step, hds]
        rw [hstep]
        exact hs
      · cases hd : slot s.handles dst with
        | none =>
            have hstep : s.step (Op.assign dst src) = s := by
              simp [TState.step, hds, hd]
            rw [hstep]
            exact hs
        | some hdv =>
            cases hsv : slot s.handles src with
            | none =>
                have hstep : s.step (Op.assign dst src) = s := by
                  simp [TState.step, hds, hd, hsv]
                rw [hstep]
                exact hs
            | some hsvv =>
                have hstep : s.step (Op.assign dst src) =
                    ⟨s.handles.set dst
                        (some (SharedPtr.acquire hsvv (hdv.release s.eff)).1),
                      (SharedPtr.acquire hsvv (hdv.release s.eff)).2⟩ := by
                  simp [TState.step, hds, hd, hsv]
                rw [hstep]
                have hmid : Inv ⟨s.handles.set dst none, hdv.release s.eff⟩ :=
                  inv_release_at hs hd
                have hlen : dst < s.handles.length := lt_length_of_slot hd
                have hsrcmid :
                    some hsvv ∈ (⟨s.handles.set dst none,
                      hdv.release s.eff⟩ : TState).handles := by
                  apply mem_of_slot (i := src)
                  show slot (s.handles.set dst none) src = some hsvv
                  rw [slot_set_ne hds]
                  exact hsv
                apply inv_acquire_gen hmid hsrcmid
                · intro h' hm'
                  rw [← List.set_set] at hm'
                  exact List.mem_or_eq_of_mem_set hm' |>.imp id
                    (by intro he; simpa using he)
                · intro id
                  have hmidslot : slot (s.handles.set dst none) dst = none :=
                    slot_set_self hlen none
                  have hmidlen : dst < (s.handles.set dst none).length := by
                    simpa using hlen
                  rw [acquire_fst]
                  have := refCount_set_some hmidslot hmidlen
                    ⟨hsvv.ptr, hsvv.cnt, hsvv.del⟩ id
                  rw [List.set_set] at this
                  simpa using this
  | reset i p d =>
      cases hslot : slot s.handles i with
      | none =>
          have hstep : s.step (Op.reset i p d) = s := by
            simp [TState.step, hslot]
          rw [hstep]
          exact hs
      | some h =>
          have hstep : s.step (Op.reset i p d) =
              ⟨s.handles.set i
                  (some ⟨p, some (h.release s.eff).heap.next, d⟩),
                ⟨((h.release s.eff).heap.alloc 1).2,
                  (h.release s.eff).events⟩⟩ := by
            simp [TState.step, hslot, SharedPtr.reset, Heap.alloc]
          rw [hstep]
          have hmid : Inv ⟨s.handles.set i none, h.release s.eff⟩ :=
            inv_release_at hs hslot
          have hlen : i < s.handles.length := lt_length_of_slot hslot
          apply inv_alloc_gen hmid p d
          · intro h' hm'
            rw [← List.set_set] at hm'
            exact List.mem_or_eq_of_mem_set hm' |>.imp id
              (by intro he; simpa using he)
          · intro id
            have hmidslot : slot (s.handles.set i none) i = none :=
              slot_set_self hlen none
            have hmidlen : i < (s.handles.set i none).length := by
              simpa using hlen
            have := refCount_set_some hmidslot hmidlen
              ⟨p, some (h.release s.eff).heap.next, d⟩ id
            rw [List.set_set] at this
            simpa using this
  | destroy i =>
      cases hslot : slot s.handles i with
      | none =>
          have hstep : s.step (Op.destroy i) = s := by
            simp [TState.step, hslot]
          rw [hstep]
          exact hs
      | some h =>
          have hstep : s.step (Op.destroy i) =
              ⟨s.handles.set i none, h.release s.eff⟩ := by
            simp [TState.step, hslot]
          rw [hstep]
          exact inv_release_at hs hslot
  | swapOp i j =>
      cases hsi : slot s.handles i with
      | none =>
          have hstep : s.step (Op.swapOp i j) = s := by
            simp [TState.step, hsi]
          rw [hstep]
          exact hs
      | some hiv =>
          cases hsj : slot s.handles j with
          | none =>
              have hstep : s.step (Op.swapOp i j) = s := by
                simp [TState.step, hsi, hsj]
              rw [hstep]
              exact hs
          | some hjv =>
              have hstep : s.step (Op.swapOp i j) =
                  ⟨(s.handles.set i (some hjv)).set j (some hiv), s.eff⟩ := by
                simp [TState.step, hsi, hsj]
              rw [hstep]
              obtain ⟨hlt, hnd, hra, hce⟩ := hs
              have hil := lt_length_of_slot hsi
              have hjl := lt_length_of_slot hsj
              refine ⟨hlt, hnd, ?_, ?_⟩
              · intro h' hm' id hid
                rcases List.mem_or_eq_of_mem_set hm' with hm2 | he
                · rcases List.mem_or_eq_of_mem_set hm2 with hm3 | he2
                  · exact hra h' hm3 id hid
                  · have : h' = hjv := by simpa using he2
                    exact hra h' (this ▸ mem_of_slot hsj) id hid
                · have : h' = hiv := by simpa using he
                  exact hra h' (this ▸ mem_of_slot hsi) id hid
              · intro c hcm
                obtain ⟨hval, hpos⟩ := hce c hcm
                have hcp : refCount ((s.handles.set i (some hjv)).set j (some hiv))
                    c.1 = refCount s.handles c.1 :=
                  countP_double_set hsi hsj hil hjl
                exact ⟨by rw [hcp]; exact hval, hpos⟩

theorem inv_init : Inv TState.init := by
  refine ⟨?_, ?_, ?_, ?_⟩ <;> simp [TState.init, Effects.init, Heap.empty, Heap.ids]

theorem inv_run_from {s : TState} (hs : Inv s) (ops : List Op) :
    Inv (TState.run s ops) := by
  induction ops generalizing s with
  | nil => exact hs
  | cons op rest ih => exact ih (inv_step hs op)

theorem inv_run (ops : List Op) : Inv (TState.run TState.init ops) :=
  inv_run_from inv_init ops

/-! ### Concrete runs: bind, copy N times, destroy in any order -/

theorem slot_replicate {m i : Nat} (h : i < m) (x : Option SharedPtr) :
    slot (List.replicate m x) i = x := by
  unfold slot
  simp [h]

theorem run_copies (p : PtrV) (d : Nat) :
    ∀ (n m : Nat), 1 ≤ m →
      TState.run ⟨List.replicate m (some ⟨p, some 0, d⟩),
          ⟨⟨[(0, (m : Int))], 1⟩, []⟩⟩ (List.replicate n (Op.copy 0)) =
        ⟨List.replicate (m + n) (some ⟨p, some 0, d⟩),
          ⟨⟨[(0, ((m + n : Nat) : Int))], 1⟩, []⟩⟩
  | 0, m, hm => by simp [TState.run]
  | n + 1, m, hm => by
      have hslot : slot (List.replicate m (some ⟨p, some 0, d⟩)) 0 =
          some ⟨p, some 0, d⟩ := slot_replicate hm _
      have hload : Heap.load ⟨[(0, (m : Int))], 1⟩ 0 = some (m : Int) := rfl
      have hstep : TState.step ⟨List.replicate m (some ⟨p, some 0, d⟩),
            ⟨⟨[(0, (m : Int))], 1⟩, []⟩⟩ (Op.copy 0) =
          ⟨List.replicate (m + 1) (some ⟨p, some 0, d⟩),
            ⟨⟨[(0, ((m + 1 : Nat) : Int))], 1⟩, []⟩⟩ := by
        simp only [TState.step, hslot, SharedPtr.acquire, hload, Option.getD_some,
          Heap.store, List.map_cons, List.map_nil, if_pos]
        rw [← List.replicate_succ' m (some (⟨p, some 0, d⟩ : SharedPtr))]
        push_cast
        rfl
      have hrun : TState.run ⟨List.replicate m (some ⟨p, some 0, d⟩),
            ⟨⟨[(0, (m : Int))], 1⟩, []⟩⟩ (List.replicate (n + 1) (Op.copy 0)) =
          TState.run (TState.step ⟨List.replicate m (some ⟨p, some 0, d⟩),
            ⟨⟨[(0, (m : Int))], 1⟩, []⟩⟩ (Op.copy 0))
            (List.replicate n (Op.copy 0)) := rfl
      rw [hrun, hstep, run_copies p d n (m + 1) (by omega)]
      have harith : m + 1 + n = m + (n + 1) := by omega
      rw [harith]

theorem step_destroy {hs : List (Option SharedPtr)} {i : Nat} {h : SharedPtr}
    (hslot : slot hs i = some h) (eff : Effects) :
    TState.step ⟨hs, eff⟩ (Op.destroy i) = ⟨hs.set i none, h.release eff⟩ := by
  simp [TState.step, hslot]

theorem release_cell_dec (p : PtrV) (d nx : Nat) (ev : List (Nat × PtrV))
    {v : Nat} (hv : 2 ≤ v) :
    SharedPtr.release ⟨p, some 0, d⟩ ⟨⟨[(0, (v : Int))], nx⟩, ev⟩ =
      ⟨⟨[(0, ((v - 1 : Nat) : Int))], nx⟩, ev⟩ := by
  have hvne : ¬ ((v : Int) = 1) := by
    have hne : ¬ (v = 1) := by omega
    exact_mod_cast hne
  have hload : Heap.load ⟨[(0, (v : Int))], nx⟩ 0 = some (v : Int) := rfl
  simp only [SharedPtr.release, hload, Option.getD_some, hvne, if_false,
    Heap.store, List.map_cons, List.map_nil, if_pos]
  have hcast : (v : Int) - 1 = ((v - 1 : Nat) : Int) := by omega
  rw [hcast]

theorem release_cell_one (p : PtrV) (d nx : Nat) (ev : List (Nat × PtrV)) :
    SharedPtr.release ⟨p, some 0, d⟩ ⟨⟨[(0, (1 : Int))], nx⟩, ev⟩ =
      ⟨⟨[], nx⟩, ev ++ [(d, p)]⟩ := by
  simp [SharedPtr.release, Heap.load, Heap.store, Heap.free, List.find?]

theorem run_destroys_strict (p : PtrV) (d : Nat) (nx : Nat)
    (ev : List (Nat × PtrV)) :
    ∀ (order : List Nat) (hs : List (Option SharedPtr)) (v : Nat),
      order.Nodup → (∀ i ∈ order, slot hs i = some ⟨p, some 0, d⟩) →
      order.length < v →
      TState.run ⟨hs, ⟨⟨[(0, (v : Int))], nx⟩, ev⟩⟩ (order.map Op.destroy) =
        ⟨order.foldl (fun l i => l.set i none) hs,
          ⟨⟨[(0, ((v - order.length : Nat) : Int))], nx⟩, ev⟩⟩
  | [], hs, v, _, _, _ => by simp [TState.run]
  | i :: rest, hs, v, hnd, hmem, hlen => by
      have hslot := hmem i (by simp)
      have hv2 : 2 ≤ v := by
        simp only [List.length_cons] at hlen
        omega
      have hinotin : i ∉ rest := (List.nodup_cons.mp hnd).1
      have ih := run_destroys_strict p d nx ev rest (hs.set i none) (v - 1)
        (List.nodup_cons.mp hnd).2
        (by
          intro j hj
          have hij : i ≠ j := fun he => hinotin (he ▸ hj)
          rw [slot_set_ne hij]
          exact hmem j (List.mem_cons_of_mem i hj))
        (by
          simp only [List.length_cons] at hlen
          omega)
      rw [List.map_cons]
      have hrun : TState.run ⟨hs, ⟨⟨[(0, (v : Int))], nx⟩, ev⟩⟩
            (Op.destroy i :: rest.map Op.destroy) =
          TState.run (TState.step ⟨hs, ⟨⟨[(0, (v : Int))], nx⟩, ev⟩⟩
            (Op.destroy i)) (rest.map Op.destroy) := rfl
      rw [hrun, step_destroy hslot, release_cell_dec p d nx ev hv2, ih]
      have hval : v - 1 - rest.length = v - (i :: rest).length := by
        simp only [List.length_cons]
        omega
      rw [hval]
      rfl

theorem run_destroys_full (p : PtrV) (d : Nat) (nx : Nat)
    (ev : List (Nat × PtrV)) :
    ∀ (order : List Nat) (hs : List (Option SharedPtr)) (v : Nat),
      order.Nodup → (∀ i ∈ order, slot hs i = some ⟨p, some 0, d⟩) →
      order.length = v → 1 ≤ v →
      TState.run ⟨hs, ⟨⟨[(0, (v : Int))], nx⟩, ev⟩⟩ (order.map Op.destroy) =
        ⟨order.foldl (fun l i => l.set i none) hs,
          ⟨⟨[], nx⟩, ev ++ [(d, p)]⟩⟩
  | [], _, v, _, _, hlen, hv => by
      subst hlen
      simp at hv
  | [i], hs, v, _, hmem, hlen, _ => by
      have hslot := hmem i (by simp)
      have hv1 : v = 1 := by simpa using hlen.symm
      subst hv1
      have hrun : TState.run ⟨hs, ⟨⟨[(0, ((1 : Nat) : Int))], nx⟩, ev⟩⟩
            ([i].map Op.destroy) =
          TState.run (TState.step ⟨hs, ⟨⟨[(0, ((1 : Nat) : Int))], nx⟩, ev⟩⟩
            (Op.destroy i)) [] := rfl
      have hone : ((1 : Nat) : Int) = (1 : Int) := rfl
      rw [hrun, step_destroy hslot, hone, release_cell_one p d nx ev]
      rfl
  | i :: j :: rest2, hs, v, hnd, hmem, hlen, _ => by
      have hslot := hmem i (by simp)
      have hv2 : 2 ≤ v := by
        simp only [List.length_cons] at hlen
        omega
      have hinotin : i ∉ (j :: rest2) := (List.nodup_cons.mp hnd).1
      have ih := run_destroys_full p d nx ev (j :: rest2) (hs.set i none) (v - 1)
        (List.nodup_cons.mp hnd).2
        (by
          intro k hk
          have hik : i ≠ k := fun he => hinotin (he ▸ hk)
          rw [slot_set_ne hik]
          exact hmem k (List.mem_cons_of_mem i hk))
        (by
          simp only [List.length_cons] at hlen ⊢
          omega)
        (by
          simp only [List.length_cons] at hlen
          omega)
      rw [List.map_cons]
      have hrun : TState.run ⟨hs, ⟨⟨[(0, (v : Int))], nx⟩, ev⟩⟩
            (Op.destroy i :: (j :: rest2).map Op.destroy) =
          TState.run (TState.step ⟨hs, ⟨⟨[(0, (v : Int))], nx⟩, ev⟩⟩
            (Op.destroy i)) ((j :: rest2).map Op.destroy) := rfl
      rw [hrun, step_destroy hslot, release_cell_dec p d nx ev hv2, ih]
      rfl

/-! ### Frame facts about `release` and allocation -/

theorem release_next (h : SharedPtr) (s : Effects) :
    (h.release s).heap.next = s.heap.next := by
  cases hcc : h.cnt with
  | none => simp [SharedPtr.release, hcc]
  | some id =>
      by_cases hv1 : (s.heap.load id).getD 0 = 1 <;>
        simp [SharedPtr.release, hcc, hv1, Heap.free, Heap.store]

theorem release_lt_next {h : SharedPtr} {s : Effects}
    (hlt : ∀ c ∈ s.heap.cells, c.1 < s.heap.next) :
    ∀ c ∈ (h.release s).heap.cells, c.1 < (h.release s).heap.next := by
  intro c hc
  rw [release_next]
  cases hcc : h.cnt with
  | none =>
      have hrel : h.release s = s := by simp [SharedPtr.release, hcc]
      rw [hrel] at hc
      exact hlt c hc
  | some id =>
      by_cases hv1 : (s.heap.load id).getD 0 = 1
      · have hrel : h.release s =
            ⟨(s.heap.store id ((s.heap.load id).getD 0 - 1)).free id,
              s.events ++ [(h.del, h.ptr)]⟩ := by
          simp [SharedPtr.release, hcc, hv1]
        rw [hrel] at hc
        obtain ⟨hc2, hcne⟩ := Heap.mem_free.mp hc
        rcases Heap.mem_store hc2 with ⟨he1, _, _⟩ | ⟨hin, _⟩
        · exact absurd he1 hcne
        · exact hlt c hin
      · have hrel : h.release s =
            ⟨s.heap.store id ((s.heap.load id).getD 0 - 1), s.events⟩ := by
          simp [SharedPtr.release, hcc, hv1]
        rw [hrel] at hc
        rcases Heap.mem_store hc with ⟨he1, _, hidm⟩ | ⟨hin, _⟩
        · obtain ⟨c1, hc1, h11⟩ := List.mem_map.mp hidm
          have := hlt c1 hc1
          rw [he1]
          omega
        · exact hlt c hin

theorem release_cells_le {h : SharedPtr} {s : Effects} (hnd : s.heap.ids.Nodup)
    {c : Nat × Int} (hc : c ∈ (h.release s).heap.cells) :
    ∃ c0 ∈ s.heap.cells, c0.1 = c.1 ∧ c.2 ≤ c0.2 := by
  cases hcc : h.cnt with
  | none =>
      have hrel : h.release s = s := by simp [SharedPtr.release, hcc]
      rw [hrel] at hc
      exact ⟨c, hc, rfl, le_refl _⟩
  | some id =>
      by_cases hv1 : (s.heap.load id).getD 0 = 1
      · have hrel : h.release s =
            ⟨(s.heap.store id ((s.heap.load id).getD 0 - 1)).free id,
              s.events ++ [(h.del, h.ptr)]⟩ := by
          simp [SharedPtr.release, hcc, hv1]
        rw [hrel] at hc
        obtain ⟨hc2, hcne⟩ := Heap.mem_free.mp hc
        rcases Heap.mem_store hc2 with ⟨he1, _, _⟩ | ⟨hin, _⟩
        · exact absurd he1 hcne
        · exact ⟨c, hin, rfl, le_refl _⟩
      · have hrel : h.release s =
            ⟨s.heap.store id ((s.heap.load id).getD 0 - 1), s.events⟩ := by
          simp [SharedPtr.release, hcc, hv1]
        rw [hrel] at hc
        rcases Heap.mem_store hc with ⟨he1, he2, hidm⟩ | ⟨hin, _⟩
        · obtain ⟨c1, hc1, h11⟩ := List.mem_map.mp hidm
          have hl : s.heap.load id = some c1.2 := by
            apply Heap.load_of_mem hnd
            rw [← h11]
            exact hc1
          refine ⟨c1, hc1, by rw [h11, he1], ?_⟩
          rw [he2, hl]
          simp
        · exact ⟨c, hin, rfl, le_refl _⟩

theorem store_free_alloc (hp : Heap) (w : Int)
    (hlt : ∀ c ∈ hp.cells, c.1 < hp.next) :
    (((hp.alloc 1).2.store hp.next w).free hp.next).cells = hp.cells := by
  show ((hp.cells ++ [(hp.next, 1)]).map
      (fun c : Nat × Int => if c.1 = hp.next then (c.1, w) else c)).filter
        (fun c : Nat × Int => decide (c.1 ≠ hp.next)) = hp.cells
  rw [List.map_append, List.filter_append]
  have h1 : hp.cells.map
      (fun c => if c.1 = hp.next then (c.1, w) else c) = hp.cells := by
    conv_rhs => rw [← List.map_id hp.cells]
    apply List.map_congr_left
    intro c hcm
    simp [Nat.ne_of_lt (hlt c hcm)]
  have h2 : hp.cells.filter (fun c => decide (c.1 ≠ hp.next)) = hp.cells := by
    rw [List.filter_eq_self]
    intro c hcm
    simp [Nat.ne_of_lt (hlt c hcm)]
  rw [h1, h2]
  simp

/-! ### The claims -/

/-- **C5, counterexample.** Move assignment is implemented as `swap(other)`,
so when the target owns a resource the moved-from source is *not* empty
afterwards: with target owning resource 1 and source owning resource 2,
after `target = move(source)` the source holds resource 1. -/
theorem c5_move_assign_counterexample :
    ¬ ((UniquePtr.moveAssign ⟨some 1, defaultDeleter⟩
        ⟨some 2, defaultDeleter⟩).2.ptr = none) := by
  decide

/-- **C5, amended.** Move construction nulls the source's pointer and the
target owns the moved resource, which is cleaned up exactly once when both
handles are destroyed; move assignment, being swap-based, exchanges the
two handles' contents, so the target owns the source's previous resource
while the source receives the target's previous resource — the source is
empty afterwards iff the target was empty before. -/
theorem c5_move_amended (dst src other : UniquePtr) (q : Nat)
    (ho : other.ptr = some q) (ev : UEvents) :
    (UniquePtr.moveCtor other).1.ptr = some q ∧
    (UniquePtr.moveCtor other).2.ptr = none ∧
    UniquePtr.destroy (UniquePtr.moveCtor other).1
        (UniquePtr.destroy (UniquePtr.moveCtor other).2 ev) =
      ev ++ [(other.del, some q)] ∧
    UniquePtr.moveAssign dst src = (⟨src.ptr, src.del⟩, ⟨dst.ptr, dst.del⟩) ∧
    ((UniquePtr.moveAssign dst src).2.ptr = none ↔ dst.ptr = none) := by
  refine ⟨ho, rfl, ?_, rfl, Iff.rfl⟩
  simp [UniquePtr.moveCtor, UniquePtr.destroy, UniquePtr.reset, ho]

/-- **C5, witness.** Concrete instance of the amended move contract:
moving a handle owning resource 7 into a fresh handle and destroying
both invokes the deleter exactly once, on resource 7. -/
theorem c5_move_amended_witness :
    UniquePtr.destroy (UniquePtr.moveCtor ⟨some 7, defaultDeleter⟩).1
        (UniquePtr.destroy (UniquePtr.moveCtor ⟨some 7, defaultDeleter⟩).2 []) =
      [] ++ [(defaultDeleter, some 7)] :=
  (c5_move_amended ⟨some 1, defaultDeleter⟩ ⟨some 2, defaultDeleter⟩
    ⟨some 7, defaultDeleter⟩ 7 rfl []).2.2.1

/-- **C6.** `swap` exchanges the resource pointer, counter-cell reference
and deleter of the two handles, leaves the effect state (heap and event
list) untouched — so no counter value changes, no cleanup runs, nothing
is allocated or deallocated — and at the trace level it preserves every
cell's number of live referents. -/
theorem c6_swap_exchanges (a b : SharedPtr) (s : Effects) (ts : TState)
    (i j : Nat) :
    SharedPtr.swapWith a b s = (b, a, s) ∧
    (ts.step (Op.swapOp i j)).eff = ts.eff ∧
    (∀ id, refCount (ts.step (Op.swapOp i j)).handles id =
      refCount ts.handles id) := by
  refine ⟨rfl, ?_, ?_⟩
  · cases hsi : slot ts.handles i <;> cases hsj : slot ts.handles j <;>
      simp [TState.step, hsi, hsj]
  · intro id
    cases hsi : slot ts.handles i with
    | none => simp [TState.step, hsi]
    | some hiv =>
        cases hsj : slot ts.handles j with
        | none => simp [TState.step, hsi, hsj]
        | some hjv =>
            have hstep : ts.step (Op.swapOp i j) =
                ⟨(ts.handles.set i (some hjv)).set j (some hiv), ts.eff⟩ := by
              simp [TState.step, hsi, hsj]
            rw [hstep]
            exact countP_double_set hsi hsj (lt_length_of_slot hsi)
              (lt_length_of_slot hsj)

/-- **C7.** Self-assignment is detected by the `this != &other` test and is
a complete no-op: the handle and the whole effect state (counter values
and event list) are returned unchanged, and at the trace level assigning
a slot to itself leaves the machine state untouched. -/
theorem c7_self_assignment_noop (h : SharedPtr) (s : Effects) (ts : TState)
    (i : Nat) :
    SharedPtr.assign h h true s = (h, s) ∧ ts.step (Op.assign i i) = ts := by
  exact ⟨rfl, by simp [TState.step]⟩

/-- **C8.** `release()` on the exclusive handle returns the stored raw
pointer, leaves the handle empty, appends no cleanup event, and a later
destruction of the released handle also invokes no cleanup. -/
theorem c8_release_relinquishes (u : UniquePtr) (ev ev2 : UEvents) :
    (u.release ev).1 = u.ptr ∧
    (u.release ev).2.1.ptr = none ∧
    (u.release ev).2.2 = ev ∧
    UniquePtr.destroy (u.release ev).2.1 ev2 = ev2 :=
  ⟨rfl, rfl, rfl, rfl⟩

/-- **C9.** Copying from an empty shared handle yields an empty handle
(null pointer, null counter-cell reference, `use_count() = 0`) and leaves
the effect state exactly unchanged; copy-assigning an empty handle into
`dst` yields an empty destination whose entire effect is `dst`'s release:
the heap allocation cursor is unchanged (nothing allocated) and every
surviving cell's value is at most its old value (nothing incremented). -/
theorem c9_copy_from_empty (h dst : SharedPtr) (s : Effects)
    (hp : h.ptr = none) (hc : h.cnt = none) (hnd : s.heap.ids.Nodup) :
    (SharedPtr.acquire h s).1 = ⟨none, none, h.del⟩ ∧
    (SharedPtr.acquire h s).2 = s ∧
    SharedPtr.use_count (SharedPtr.acquire h s).1 s.heap = 0 ∧
    (SharedPtr.assign dst h false s).1 = ⟨none, none, h.del⟩ ∧
    (SharedPtr.assign dst h false s).2 = dst.release s ∧
    (dst.release s).heap.next = s.heap.next ∧
    (∀ c ∈ (dst.release s).heap.cells, ∃ c0 ∈ s.heap.cells,
        c0.1 = c.1 ∧ c.2 ≤ c0.2) := by
  have hfst : ∀ s' : Effects, (SharedPtr.acquire h s').1 = ⟨none, none, h.del⟩ := by
    intro s'
    rw [acquire_fst, hp, hc]
  have hsnd : ∀ s' : Effects, (SharedPtr.acquire h s').2 = s' := by
    intro s'
    simp [SharedPtr.acquire, hc]
  have hassign : SharedPtr.assign dst h false s =
      SharedPtr.acquire h (dst.release s) := rfl
  refine ⟨hfst s, hsnd s, ?_, ?_, ?_, release_next dst s, ?_⟩
  · rw [hfst s]
    rfl
  · rw [hassign, hfst (dst.release s)]
  · rw [hassign, hsnd (dst.release s)]
  · intro c hcm
    exact release_cells_le hnd hcm

/-- **C9, witness.** Concrete instance: copying from the empty handle
with deleter tag 3 in a one-cell heap reports `use_count() = 0`. -/
theorem c9_copy_from_empty_witness :
    SharedPtr.use_count
      (SharedPtr.acquire ⟨none, none, 3⟩ ⟨⟨[(0, 2)], 1⟩, []⟩).1
      (⟨⟨[(0, 2)], 1⟩, []⟩ : Effects).heap = 0 :=
  (c9_copy_from_empty ⟨none, none, 3⟩ ⟨some 2, some 0, defaultDeleter⟩
    ⟨⟨[(0, 2)], 1⟩, []⟩ rfl rfl (by decide)).2.2.1

/-- **C10.** Bound construction from a null resource pointer still
allocates a counter cell at 1: the boolean conversion is `false` while
`use_count()` is 1, and destroying the handle invokes the stored deleter
exactly once with the null pointer, deallocating the cell and restoring
the heap's cells. -/
theorem c10_bind_null_pointer (d : Nat) (s : Effects)
    (hlt : ∀ c ∈ s.heap.cells, c.1 < s.heap.next) :
    (SharedPtr.bindNew none d s).1.asBool = false ∧
    SharedPtr.use_count (SharedPtr.bindNew none d s).1
      (SharedPtr.bindNew none d s).2.heap = 1 ∧
    (SharedPtr.release (SharedPtr.bindNew none d s).1
      (SharedPtr.bindNew none d s).2).events = s.events ++ [(d, none)] ∧
    (SharedPtr.release (SharedPtr.bindNew none d s).1
      (SharedPtr.bindNew none d s).2).heap.cells = s.heap.cells := by
  have hload : (s.heap.alloc 1).2.load s.heap.next = some 1 :=
    Heap.load_alloc s.heap 1 hlt
  have huc : SharedPtr.use_count (SharedPtr.bindNew none d s).1
      (SharedPtr.bindNew none d s).2.heap =
      ((s.heap.alloc 1).2.load s.heap.next).getD 0 := rfl
  have hrel : SharedPtr.release (SharedPtr.bindNew none d s).1
      (SharedPtr.bindNew none d s).2 =
      ⟨((s.heap.alloc 1).2.store s.heap.next (1 - 1)).free s.heap.next,
        s.events ++ [(d, none)]⟩ := by
    show SharedPtr.release ⟨none, some s.heap.next, d⟩
        ⟨(s.heap.alloc 1).2, s.events⟩ = _
    simp [SharedPtr.release, hload]
  refine ⟨rfl, ?_, ?_, ?_⟩
  · rw [huc, hload]
    rfl
  · rw [hrel]
  · rw [hrel]
    exact store_free_alloc s.heap (1 - 1) hlt

/-- **C10, witness.** Concrete instance: binding a null pointer over a
one-cell heap reports `use_count() = 1` on the new handle. -/
theorem c10_bind_null_pointer_witness :
    SharedPtr.use_count
      (SharedPtr.bindNew none defaultDeleter ⟨⟨[(0, 2)], 1⟩, []⟩).1
      (SharedPtr.bindNew none defaultDeleter ⟨⟨[(0, 2)], 1⟩, []⟩).2.heap = 1 :=
  (c10_bind_null_pointer defaultDeleter ⟨⟨[(0, 2)], 1⟩, []⟩ (by decide)).2.1

/-- **C2.** After any sequence of shared-handle operations from the empty
initial state, every allocated counter cell stores exactly the number of
live handles referencing it, that value is positive (never negative,
never zero while the cell is allocated), and every live handle's
counter-cell reference points to an allocated cell whose loaded value is
its positive live-referent count. -/
theorem c2_count_equals_live_handles (ops : List Op) :
    (∀ c ∈ (TState.run TState.init ops).eff.heap.cells,
        c.2 = (refCount (TState.run TState.init ops).handles c.1 : Int) ∧
        0 < c.2) ∧
    (∀ h : SharedPtr, some h ∈ (TState.run TState.init ops).handles →
      ∀ id, h.cnt = some id →
        (TState.run TState.init ops).eff.heap.load id =
          some (refCount (TState.run TState.init ops).handles id : Int) ∧
        0 < refCount (TState.run TState.init ops).handles id) := by
  obtain ⟨hlt, hnd, hra, hce⟩ := inv_run ops
  constructor
  · intro c hc
    obtain ⟨hval, hpos⟩ := hce c hc
    exact ⟨hval, by omega⟩
  · intro h hm id hid
    have hidm := hra h hm id hid
    obtain ⟨c0, hc0, h01⟩ := List.mem_map.mp hidm
    obtain ⟨hval, hpos⟩ := hce c0 hc0
    have hc0eq : c0 =
        (id, (refCount (TState.run TState.init ops).handles id : Int)) := by
      obtain ⟨ck, cv⟩ := c0
      simp only at h01
      subst h01
      simpa using hval
    refine ⟨Heap.load_of_mem hnd (hc0eq ▸ hc0), ?_⟩
    rw [hc0eq] at hpos
    simp only at hpos
    omega

/-- **C3, counterexample.** `reset()` with the default null pointer does
*not* empty the handle: on a handle owning resource 5 in cell 0, the
result holds a fresh counter-cell reference (cell 1) and `use_count()`
returns 1, so "`use_count() = 0` and no counter-cell reference" fails. -/
theorem c3_reset_null_counterexample :
    ¬ (((SharedPtr.reset ⟨some 5, some 0, defaultDeleter⟩ none defaultDeleter
          ⟨⟨[(0, 1)], 1⟩, []⟩).1.cnt = none) ∧
       SharedPtr.use_count
         (SharedPtr.reset ⟨some 5, some 0, defaultDeleter⟩ none defaultDeleter
           ⟨⟨[(0, 1)], 1⟩, []⟩).1
         (SharedPtr.reset ⟨some 5, some 0, defaultDeleter⟩ none defaultDeleter
           ⟨⟨[(0, 1)], 1⟩, []⟩).2.heap = 0) := by
  decide

/-- **C3, amended.** `reset()` with a null pointer does leave the resource
pointer null and the boolean conversion `false`, but it allocates a fresh
counter cell at 1 and stores a reference to it, so `use_count()` returns
1 rather than 0. -/
theorem c3_reset_null_amended (h : SharedPtr) (d : Nat) (s : Effects)
    (hlt : ∀ c ∈ s.heap.cells, c.1 < s.heap.next) :
    (h.reset none d s).1.ptr = none ∧
    (h.reset none d s).1.asBool = false ∧
    (h.reset none d s).1.cnt = some (h.release s).heap.next ∧
    SharedPtr.use_count (h.reset none d s).1 (h.reset none d s).2.heap = 1 := by
  have hlt2 := release_lt_next (h := h) (s := s) hlt
  have huc : SharedPtr.use_count (h.reset none d s).1 (h.reset none d s).2.heap =
      (((h.release s).heap.alloc 1).2.load (h.release s).heap.next).getD 0 := rfl
  refine ⟨rfl, rfl, rfl, ?_⟩
  rw [huc, Heap.load_alloc (h.release s).heap 1 hlt2]
  rfl

/-- **C3, witness.** Concrete instance of the amended reset contract:
`use_count()` after `reset()` on a handle owning resource 5 is 1. -/
theorem c3_reset_null_witness :
    SharedPtr.use_count
      (SharedPtr.reset ⟨some 5, some 0, defaultDeleter⟩ none defaultDeleter
        ⟨⟨[(0, 1)], 1⟩, []⟩).1
      (SharedPtr.reset ⟨some 5, some 0, defaultDeleter⟩ none defaultDeleter
        ⟨⟨[(0, 1)], 1⟩, []⟩).2.heap = 1 :=
  (c3_reset_null_amended ⟨some 5, some 0, defaultDeleter⟩ defaultDeleter
    ⟨⟨[(0, 1)], 1⟩, []⟩ (by decide)).2.2.2

/-- **C4, counterexample.** Bound construction from a null resource
pointer produces a handle with a null resource pointer but a *non-null*
counter-cell reference, so the "counter-cell reference is null iff the
resource pointer is null" invariant is not preserved by every operation. -/
theorem c4_null_iff_counterexample :
    (SharedPtr.bindNew none defaultDeleter Effects.init).1.ptr = none ∧
    (SharedPtr.bindNew none defaultDeleter Effects.init).1.cnt ≠ none ∧
    ¬ nullIff (SharedPtr.bindNew none defaultDeleter Effects.init).1 := by
  refine ⟨rfl, by decide, ?_⟩
  unfold nullIff
  decide

/-- **C4, amended.** Every trace-machine operation preserves "counter-cell
reference null iff resource pointer null" for all live handles, provided
bound construction and `reset` are never given a null resource pointer;
with a null pointer they produce the violating handle of the
counterexample. -/
theorem c4_null_iff_amended (s : TState) (op : Op)
    (hok : opNonNull op = true)
    (hall : ∀ h : SharedPtr, some h ∈ s.handles → nullIff h) :
    ∀ h : SharedPtr, some h ∈ (s.step op).handles → nullIff h := by
  cases op with
  | newEmpty =>
      intro h hm
      rcases List.mem_append.mp hm with hin | hnew
      · exact hall h hin
      · have he : h = SharedPtr.mkEmpty := by simpa using hnew
        rw [he]
        unfold nullIff SharedPtr.mkEmpty
        simp
  | newBound p d =>
      intro h hm
      rcases List.mem_append.mp hm with hin | hnew
      · exact hall h hin
      · have he : h = ⟨p, some s.eff.heap.next, d⟩ := by
          simpa [SharedPtr.bindNew] using hnew
        rw [he]
        unfold nullIff
        have hok2 : p.isSome = true := hok
        constructor
        · intro hcon
          exact absurd hcon (by simp)
        · intro hpn
          simp only at hpn
          rw [hpn] at hok2
          simp at hok2
  | copy i =>
      cases hslot : slot s.handles i with
      | none =>
          have hstep : s.step (Op.copy i) = s := by simp [TState.step, hslot]
          rw [hstep]
          exact hall
      | some h0 =>
          have hstep : s.step (Op.copy i) =
              ⟨s.handles ++ [some (SharedPtr.acquire h0 s.eff).1],
                (SharedPtr.acquire h0 s.eff).2⟩ := by
            simp [TState.step, hslot]
          rw [hstep]
          intro h hm
          rcases List.mem_append.mp hm with hin | hnew
          · exact hall h hin
          · have he : h = (SharedPtr.acquire h0 s.eff).1 := by simpa using hnew
            rw [he, acquire_fst]
            exact hall h0 (mem_of_slot hslot)
  | assign dst src =>
      by_cases hds : dst = src
      · have hstep : s.step (Op.assign dst src) = s := by
          simp [TState.step, hds]
        rw [hstep]
        exact hall
      · cases hd : slot s.handles dst with
        | none =>
            have hstep : s.step (Op.assign dst src) = s := by
              simp [TState.step, hds, hd]
            rw [hstep]
            exact hall
        | some hdv =>
            cases hsv : slot s.handles src with
            | none =>
                have hstep : s.step (Op.assign dst src) = s := by
                  simp [TState.step, hds, hd, hsv]
                rw [hstep]
                exact hall
            | some hsvv =>
                have hstep : s.step (Op.assign dst src) =
                    ⟨s.handles.set dst
                        (some (SharedPtr.acquire hsvv (hdv.release s.eff)).1),
                      (SharedPtr.acquire hsvv (hdv.release s.eff)).2⟩ := by
                  simp [TState.step, hds, hd, hsv]
                rw [hstep]
                intro h hm
                rcases List.mem_or_eq_of_mem_set hm with hin | he
                · exact hall h hin
                · have he2 : h = (SharedPtr.acquire hsvv (hdv.release s.eff)).1 := by
                    simpa using he
                  rw [he2, acquire_fst]
                  exact hall hsvv (mem_of_slot hsv)
  | reset i p d =>
      cases hslot : slot s.handles i with
      | none =>
          have hstep : s.step (Op.reset i p d) = s := by
            simp [TState.step, hslot]
          rw [hstep]
          exact hall
      | some h0 =>
          have hstep : s.step (Op.reset i p d) =
              ⟨s.handles.set i
                  (some ⟨p, some (h0.release s.eff).heap.next, d⟩),
                ⟨((h0.release s.eff).heap.alloc 1).2,
                  (h0.release s.eff).events⟩⟩ := by
            simp [TState.step, hslot, SharedPtr.reset, Heap.alloc]
          rw [hstep]
          intro h hm
          rcases List.mem_or_eq_of_mem_set hm with hin | he
          · exact hall h hin
          · have he2 : h = ⟨p, some (h0.release s.eff).heap.next, d⟩ := by
              simpa using he
            rw [he2]
            unfold nullIff
            have hok2 : p.isSome = true := hok
            constructor
            · intro hcon
              exact absurd hcon (by simp)
            · intro hpn
              simp only at hpn
              rw [hpn] at hok2
              simp at hok2
  | destroy i =>
      cases hslot : slot s.handles i with
      | none =>
          have hstep : s.step (Op.destroy i) = s := by
            simp [TState.step, hslot]
          rw [hstep]
          exact hall
      | some h0 =>
          have hstep : s.step (Op.destroy i) =
              ⟨s.handles.set i none, h0.release s.eff⟩ := by
            simp [TState.step, hslot]
          rw [hstep]
          intro h hm
          rcases List.mem_or_eq_of_mem_set hm with hin | he
          · exact hall h hin
          · simp at he
  | swapOp i j =>
      cases hsi : slot s.handles i with
      | none =>
          have hstep : s.step (Op.swapOp i j) = s := by
            simp [TState.step, hsi]
          rw [hstep]
          exact hall
      | some hiv =>
          cases hsj : slot s.handles j with
          | none =>
              have hstep : s.step (Op.swapOp i j) = s := by
                simp [TState.step, hsi, hsj]
              rw [hstep]
              exact hall
          | some hjv =>
              have hstep : s.step (Op.swapOp i j) =
                  ⟨(s.handles.set i (some hjv)).set j (some hiv), s.eff⟩ := by
                simp [TState.step, hsi, hsj]
              rw [hstep]
              intro h hm
              rcases List.mem_or_eq_of_mem_set hm with hm2 | he
              · rcases List.mem_or_eq_of_mem_set hm2 with hm3 | he2
                · exact hall h hm3
                · have : h = hjv := by simpa using he2
                  exact this ▸ hall hjv (mem_of_slot hsj)
              · have : h = hiv := by simpa using he
                exact this ▸ hall hiv (mem_of_slot hsi)

/-- **C4, witness.** Concrete instance: copying the sole handle of a
one-handle state with a non-null pointer keeps the null-iff invariant for
the handle value present in the resulting state. -/
theorem c4_null_iff_witness :
    nullIff ⟨some 5, some 0, defaultDeleter⟩ :=
  c4_null_iff_amended
    ⟨[some ⟨some 5, some 0, defaultDeleter⟩], ⟨⟨[(0, 1)], 1⟩, []⟩⟩
    (Op.copy 0) (by decide)
    (by
      intro h hm
      rw [List.mem_singleton] at hm
      injection hm with hm2
      rw [hm2]
      unfold nullIff
      simp)
    ⟨some 5, some 0, defaultDeleter⟩ (by decide)

theorem run_append (s : TState) (l1 l2 : List Op) :
    TState.run s (l1 ++ l2) = TState.run (TState.run s l1) l2 := by
  simp [TState.run]

/-- **C1.** Binding a resource `p` with cleanup routine `d`, copying the
resulting handle `N` times, then destroying all `N + 1` handles in an
arbitrary order (any permutation of the slots) invokes the cleanup
routine exactly once — the event list of the whole run is `[(d, p)]` —
and only at the last destruction: after any proper prefix of the
destructions no cleanup event has been emitted yet. -/
theorem c1_cleanup_exactly_once (p : PtrV) (d : Nat) (N : Nat)
    (order : List Nat) (hperm : order.Perm (List.range (N + 1))) :
    (TState.run TState.init (Op.newBound p d ::
        (List.replicate N (Op.copy 0) ++ order.map Op.destroy))).eff.events
      = [(d, p)] ∧
    (∀ pre suff, order = pre ++ suff → suff ≠ [] →
      (TState.run TState.init (Op.newBound p d ::
          (List.replicate N (Op.copy 0) ++ pre.map Op.destroy))).eff.events
        = []) := by
  have hnd : order.Nodup := hperm.nodup_iff.mpr (List.nodup_range (N + 1))
  have hlen : order.length = 1 + N := by
    rw [hperm.length_eq, List.length_range]
    omega
  have hmemlt : ∀ i ∈ order, i < 1 + N := by
    intro i hi
    have := List.mem_range.mp (hperm.mem_iff.mp hi)
    omega
  have h0 : TState.step TState.init (Op.newBound p d) =
      ⟨List.replicate 1 (some ⟨p, some 0, d⟩),
        ⟨⟨[(0, ((1 : Nat) : Int))], 1⟩, []⟩⟩ := by
    simp [TState.step, TState.init, SharedPtr.bindNew, Heap.alloc,
      Effects.init, Heap.empty]
  have hcons : ∀ l : List Op,
      TState.run TState.init (Op.newBound p d :: l) =
        TState.run (TState.step TState.init (Op.newBound p d)) l :=
    fun l => rfl
  have hcopies := run_copies p d N 1 (le_refl 1)
  constructor
  · rw [hcons, h0, run_append, hcopies]
    rw [run_destroys_full p d 1 [] order
      (List.replicate (1 + N) (some ⟨p, some 0, d⟩)) (1 + N) hnd
      (fun i hi => slot_replicate (hmemlt i hi) _) hlen (by omega)]
    simp
  · intro pre suff heq hsne
    have hprend : pre.Nodup := by
      rw [heq, List.nodup_append] at hnd
      exact hnd.1
    have hprelen : pre.length < 1 + N := by
      have h1 : order.length = pre.length + suff.length := by
        rw [heq, List.length_append]
      have h2 : 0 < suff.length := List.length_pos.mpr hsne
      omega
    have hpremem : ∀ i ∈ pre, slot
        (List.replicate (1 + N) (some (⟨p, some 0, d⟩ : SharedPtr))) i =
        some ⟨p, some 0, d⟩ := by
      intro i hi
      have : i ∈ order := by
        rw [heq]
        exact List.mem_append_left suff hi
      exact slot_replicate (hmemlt i this) _
    rw [hcons, h0, run_append, hcopies]
    rw [run_destroys_strict p d 1 [] pre
      (List.replicate (1 + N) (some ⟨p, some 0, d⟩)) (1 + N) hprend
      hpremem hprelen]

/-- **C1, witness.** Concrete instance: bind resource 5, copy once, then
destroy the copy first and the original second; the cleanup routine runs
exactly once, on resource 5. -/
theorem c1_cleanup_exactly_once_witness :
    (TState.run TState.init (Op.newBound (some 5) defaultDeleter ::
        (List.replicate 1 (Op.copy 0) ++ [1, 0].map Op.destroy))).eff.events
      = [(defaultDeleter, some 5)] :=
  (c1_cleanup_exactly_once (some 5) defaultDeleter 1 [1, 0] (by decide)).1

end CppStl
